import Mathlib

/-!
Shallow embedding of `organize_tablatures.py`, a script that sorts guitar
tablature files named `Artist - Title.ext` into per-artist folders.
Strings are modelled as `List Char`; the Python regexes used by the script
are transcribed as executable matchers over character lists; the filesystem
is an association list from paths (component lists) to file identities.
-/

namespace TabOrg

/-- Model of Python's regex class `\s` restricted to the ASCII whitespace
characters (space, tab, newline, carriage return, vertical tab, form feed). -/
def pyIsSpace (c : Char) : Bool :=
  c == ' ' || c == '\t' || c == '\n' || c == '\r' || c == '\x0b' || c == '\x0c'

/-- Model of Python's regex class `\w` restricted to ASCII: letters, digits
and the underscore. -/
def pyIsWord (c : Char) : Bool :=
  c.isAlphanum || c == '_'

/-- Holds when no character of the list is a newline; Python's `.` regex
atom matches exactly the non-newline characters. -/
def noNL (l : List Char) : Bool :=
  l.all (fun c => !(c == '\n'))

/-- Bounded linear search for the smallest index `i`, `start ≤ i < start + fuel`,
satisfying `p`.  Used to model where a regex engine places a non-greedy or
leftmost split point. -/
def findFromAux (p : Nat → Bool) : Nat → Nat → Option Nat
  | 0, _ => none
  | fuel + 1, i => if p i then some i else findFromAux p fuel (i + 1)

/-- Bounded downward search for the largest index `i`, `1 ≤ i ≤ n`,
satisfying `p`.  Used to model where a greedy `\s+` with backtracking
settles. -/
def findDown (p : Nat → Bool) : Nat → Option Nat
  | 0 => none
  | n + 1 => if p (n + 1) then some (n + 1) else findDown p n

/-- Tests whether a character list starts with `\s-\s`: one whitespace
character, a hyphen, one whitespace character.  This is the separator
pattern shared by the two regexes in the script. -/
def sepHere : List Char → Bool
  | w1 :: c :: w2 :: _ => pyIsSpace w1 && (c == '-') && pyIsSpace w2
  | _ => false

/-- Tests whether a character list starts with a literal dot followed by a
non-empty all-word-character remainder running to the end: the `[.]\w+$`
tail of the full pattern. -/
def dotExtHere : List Char → Bool
  | d :: e => (d == '.') && !e.isEmpty && e.all pyIsWord
  | [] => false

/-- Tests whether `r` fully matches `.+[.]\w+`: a non-empty run of
non-newline characters, a literal dot, then a non-empty extension of word
characters reaching the end of the string. -/
def extMatch (r : List Char) : Bool :=
  (findFromAux
    (fun j => decide (1 ≤ j) && noNL (r.take j) && dotExtHere (r.drop j))
    r.length 0).isSome

/-- Tests whether a character list starts with `\s-\s` followed by a tail
fully matching `.+[.]\w+`. -/
def sepExtHere : List Char → Bool
  | w1 :: c :: w2 :: r =>
    pyIsSpace w1 && (c == '-') && pyIsSpace w2 && extMatch r
  | _ => false

/-- Index at which the whole-filename regex `(.+)\s-\s.+[.]{1}\w+` (from
`store_file`, matched with `re.fullmatch`) can split off its leading group:
the smallest `i` with a non-empty newline-free prefix of length `i`
followed by `\s-\s` and then a tail matching `.+[.]\w+`. -/
def tabIdx (s : List Char) : Option Nat :=
  findFromAux
    (fun i => decide (1 ≤ i) && noNL (s.take i) && sepExtHere (s.drop i))
    s.length 0

/-- Model of `re.fullmatch(r"(.+)\s-\s.+[.]{1}\w+$", name)` from
`store_file`: true exactly when some decomposition witnesses the pattern. -/
def tabFullmatch (s : List Char) : Bool :=
  (tabIdx s).isSome

/-- Model of `re.match(r"(.+?)\s-\s", filename)` from `get_artist`: the
non-greedy leading group stops at the first position where a non-empty
newline-free prefix is followed by the `\s-\s` separator pattern; the
captured group (the raw artist segment) is returned. -/
def artistSplit (s : List Char) : Option (List Char) :=
  (findFromAux
    (fun i => decide (1 ≤ i) && noNL (s.take i) && sepHere (s.drop i))
    s.length 0).map (fun i => s.take i)

/-- Modelled from the spec: the shape claimed for matching filenames, with a
literal space-hyphen-space separator and unconstrained non-empty segments.
Written from the claim's words, to be compared with `tabFullmatch`. -/
def litShapeMatch (s : List Char) : Bool :=
  (findFromAux
    (fun i =>
      decide (1 ≤ i) &&
      (match s.drop i with
       | w1 :: c :: w2 :: r =>
         (w1 == ' ') && (c == '-') && (w2 == ' ') &&
         ((findFromAux
            (fun j =>
              decide (1 ≤ j) &&
              (match r.drop j with
               | d :: e => (d == '.') && !e.isEmpty && e.all pyIsWord
               | [] => false))
            r.length 0).isSome)
       | _ => false))
    s.length 0).isSome

/-- Modelled from the spec: the leading segment before the first occurrence
of the literal three-character separator `" - "`, as the claim about artist
extraction describes it.  Written from the claim's words, to be compared
with `artistSplit`. -/
def litSepSegment (s : List Char) : Option (List Char) :=
  (findFromAux
    (fun i =>
      match s.drop i with
      | w1 :: c :: w2 :: _ => (w1 == ' ') && (c == '-') && (w2 == ' ')
      | _ => false)
    s.length 0).map (fun i => s.take i)

/-- Declarative characterisation of the whole-filename pattern: some
decomposition into a non-empty newline-free head, a whitespace-hyphen-
whitespace separator, a non-empty newline-free middle, a dot and a
non-empty word-character extension. -/
def TabShape (s : List Char) : Prop :=
  ∃ a w1 w2 b e, s = a ++ w1 :: '-' :: w2 :: (b ++ '.' :: e) ∧
    a ≠ [] ∧ noNL a = true ∧ pyIsSpace w1 = true ∧ pyIsSpace w2 = true ∧
    b ≠ [] ∧ noNL b = true ∧ e ≠ [] ∧ e.all pyIsWord = true

/-- Model of Python's per-character lowercasing restricted to ASCII:
uppercase latin letters shift down by 32, everything else is unchanged. -/
def lowChar (c : Char) : Char :=
  if 65 ≤ c.toNat ∧ c.toNat ≤ 90 then Char.ofNat (c.toNat + 32) else c

/-- Model of Python's per-character uppercasing restricted to ASCII:
lowercase latin letters shift up by 32, everything else is unchanged. -/
def upChar (c : Char) : Char :=
  if 97 ≤ c.toNat ∧ c.toNat ≤ 122 then Char.ofNat (c.toNat - 32) else c

/-- Cased characters in the ASCII model: latin letters.  Python's
`str.title` treats maximal runs of cased characters as words. -/
def isCased (c : Char) : Bool :=
  (65 ≤ c.toNat && c.toNat ≤ 90) || (97 ≤ c.toNat && c.toNat ≤ 122)

/-- Model of Python's `str.title()` (ASCII fragment): a cased character is
uppercased when the previous character was not cased and lowercased when it
was; uncased characters pass through and reset the word state.  The boolean
argument records whether the previous character was cased. -/
def pyTitleAux : Bool → List Char → List Char
  | _, [] => []
  | prevCased, c :: cs =>
    if isCased c then
      (if prevCased then lowChar c else upChar c) :: pyTitleAux true cs
    else
      c :: pyTitleAux false cs

/-- Model of `str.title()` on a whole string: the first character starts a
word. -/
def pyTitle (s : List Char) : List Char :=
  pyTitleAux false s

/-- Length of the leading whitespace run of a character list; the greedy
`\s+` in the artist-reformatting regex can consume at most this many
characters. -/
def wsRun (l : List Char) : Nat :=
  (l.takeWhile pyIsSpace).length

/-- Tests whether a character list starts with a character other than a
newline, which is what `(.+)` needs in order to start matching. -/
def headNonNl : List Char → Bool
  | d :: _ => !(d == '\n')
  | [] => false

/-- Model of matching `\s+(.+)` against `rest` with Python's greedy
backtracking semantics: `\s+` consumes the longest whitespace run that
still leaves a non-newline character for `(.+)`, and the group then runs
to the next newline or the end of the string. -/
def wsGroup (rest : List Char) : Option (List Char) :=
  (findDown (fun i => headNonNl (rest.drop i)) (wsRun rest)).map
    (fun i => (rest.drop i).takeWhile (fun c => !(c == '\n')))

/-- Model of `re.match(r"(?i)^the\s+(.+)", name)` from `reformat_artist`:
a case-insensitive `the`, at least one whitespace character, then a
non-empty group of non-newline characters; returns the captured group. -/
def theGroup (s : List Char) : Option (List Char) :=
  match s with
  | c1 :: c2 :: c3 :: rest =>
    if lowChar c1 = 't' ∧ lowChar c2 = 'h' ∧ lowChar c3 = 'e' then wsGroup rest
    else none
  | _ => none

/-- Model of `reformat_artist`: when the `(?i)^the\s+(.+)` regex matches,
title-case the captured group and append `", The"`; otherwise title-case
the whole name. -/
def reformat_artist (name : List Char) : List Char :=
  match theGroup name with
  | some g => pyTitle g ++ [',', ' ', 'T', 'h', 'e']
  | none => pyTitle name

/-- Model of `get_artist`: extract the raw artist segment with the
non-greedy regex and reformat it; `none` models the raised `ValueError`
when the extraction regex does not match. -/
def get_artist (filename : List Char) : Option (List Char) :=
  (artistSplit filename).map reformat_artist

/-- Bounded downward search for the largest index `i < n` satisfying `p`,
modelling Python's `str.rfind`. -/
def rfindAux (p : Nat → Bool) : Nat → Option Nat
  | 0 => none
  | n + 1 => if p n then some n else rfindAux p n

/-- Position where `pathlib` splits a file name into stem and suffix: the
index of the last dot, provided that dot is neither the leading character
nor the final character. -/
def dotIdx (name : List Char) : Option Nat :=
  match rfindAux (fun i => (name.drop i).head? == some '.') name.length with
  | some i => if 0 < i ∧ i < name.length - 1 then some i else none
  | none => none

/-- Model of `pathlib`'s suffix computation on a file name: the part of the
name from its last dot onwards when `dotIdx` accepts it; empty otherwise. -/
def pySuffix (name : List Char) : List Char :=
  match dotIdx name with
  | some i => name.drop i
  | none => []

/-- Model of `pathlib`'s stem computation on a file name: the name with its
`pySuffix` removed. -/
def pyStem (name : List Char) : List Char :=
  match dotIdx name with
  | some i => name.take i
  | none => name

/-- Wall-clock instant handed to `datetime.now()`: the six fields that the
collision timestamp format uses. -/
structure Timestamp where
  day : Nat
  month : Nat
  year : Nat
  hour : Nat
  minute : Nat
  second : Nat
deriving DecidableEq

/-- Decimal digits of a two-digit zero-padded field, as `strftime`'s `%d`,
`%m`, `%H`, `%M` and `%S` render values below 100. -/
def pad2 (n : Nat) : List Char :=
  if n < 100 then [Nat.digitChar (n / 10), Nat.digitChar (n % 10)]
  else Nat.toDigits 10 n

/-- Decimal digits of a four-digit zero-padded field, as `strftime`'s `%Y`
renders years below 10000. -/
def pad4 (n : Nat) : List Char :=
  if n < 10000 then
    [Nat.digitChar (n / 1000), Nat.digitChar (n / 100 % 10),
     Nat.digitChar (n / 10 % 10), Nat.digitChar (n % 10)]
  else Nat.toDigits 10 n

/-- Model of `datetime.now().strftime("_%d%m%Y_%H%M%S")` from `move_file`. -/
def fmtTimestamp (t : Timestamp) : List Char :=
  '_' :: (pad2 t.day ++ pad2 t.month ++ pad4 t.year ++
    ('_' :: (pad2 t.hour ++ pad2 t.minute ++ pad2 t.second)))

/-- Model of `filepath.stem + timestamp + filepath.suffix` from
`move_file`: the collision-avoidance name with the timestamp inserted
between stem and extension. -/
def tsName (name : String) (t : Timestamp) : String :=
  String.mk (pyStem name.toList ++ fmtTimestamp t ++ pySuffix name.toList)

/-- Filesystem paths are lists of components below the root. -/
abbrev Path := List String

/-- Model of `pathlib`'s `parents` of a path: all strict ancestor prefixes,
from the root up to the immediate parent. -/
def pathParents (p : Path) : List Path :=
  (List.range p.length).map (fun i => p.take i)

/-- Model of `Path.name`: the final component of a path. -/
def pathName (p : Path) : String :=
  p.getLastD ""

/-- Filesystem contents: an association list from the path of each regular
file to an identity for its contents.  Directories are implicit. -/
abbrev FS := List (Path × Nat)

/-- Lookup of the file identity stored at a path. -/
def fsGet : FS → Path → Option Nat
  | [], _ => none
  | (q, i) :: rest, p => if p = q then some i else fsGet rest p

/-- Model of `Path.exists()` for a file path. -/
def fsExists (fs : FS) (p : Path) : Bool :=
  (fsGet fs p).isSome

/-- Model of a successful POSIX `Path.rename`: the source entry disappears
and its contents appear at the destination, silently replacing any file
already there. -/
def fsRename (fs : FS) (src dst : Path) : FS :=
  match fsGet fs src with
  | none => fs
  | some i => (dst, i) :: fs.filter (fun e => decide (e.1 ≠ src ∧ e.1 ≠ dst))

/-- Observable log events of one run, one constructor per message kind the
script can emit. -/
inductive Event where
  | abortError
  | skipWarning (name : String)
  | collisionInfo (name : String) (newName : String)
  | movedInfo (name : String) (target : Path)
  | moveError (name : String)
  | valueError (name : String)
  | completeInfo
deriving DecidableEq

/-- File name an event reports about, when it reports about one. -/
def eventName : Event → Option String
  | .skipWarning n => some n
  | .collisionInfo n _ => some n
  | .movedInfo n _ => some n
  | .moveError n => some n
  | .valueError n => some n
  | _ => none

/-- Model of `create_folder`: the artist directory is the output directory
joined with the artist name used verbatim; `mkdir(parents=True,
exist_ok=True)` has no effect on the file map. -/
def create_folder (artist_name : String) (output_dir : Path) : Path :=
  output_dir ++ [artist_name]

/-- Target path chosen by `move_file`: the candidate keeps the source's
base name, and on collision the timestamp-suffixed name is used instead,
with no further check. -/
def move_target (fs : FS) (t : Timestamp) (filepath output_dir : Path) : Path :=
  let name := pathName filepath
  if fsExists fs (output_dir ++ [name]) then output_dir ++ [tsName name t]
  else output_dir ++ [name]

/-- Model of `move_file`: pick the target (timestamped on collision), then
attempt the rename.  `renameOk` is the environment's verdict on whether the
rename call succeeds; on failure the exception is caught, an error event is
logged and the filesystem is untouched. -/
def move_file (fs : FS) (t : Timestamp) (filepath output_dir : Path)
    (renameOk : Bool) : FS × List Event :=
  let name := pathName filepath
  let collided := fsExists fs (output_dir ++ [name])
  let target := move_target fs t filepath output_dir
  let evs := if collided then [Event.collisionInfo name (tsName name t)] else []
  if renameOk then (fsRename fs filepath target, evs ++ [Event.movedInfo name target])
  else (fs, evs ++ [Event.moveError name])

/-- Model of `store_file`: skip names failing the full tablature pattern
with a warning; otherwise extract the artist, build the artist folder and
move the file.  The third component records whether the uncaught
`ValueError` of `get_artist` was raised. -/
def store_file (fs : FS) (input_dir output_dir : Path) (fname : String)
    (t : Timestamp) (renameOk : Bool) : FS × List Event × Bool :=
  if tabFullmatch fname.toList then
    match get_artist fname.toList with
    | none => (fs, [Event.valueError fname], true)
    | some artist =>
      let r := move_file fs t (input_dir ++ [fname])
        (create_folder (String.mk artist) output_dir) renameOk
      (r.1, r.2, false)
  else (fs, [Event.skipWarning fname], false)

/-- Sequential processing of the enumerated file list, one
`(name, now-time, rename-verdict)` triple per file; an uncaught exception
stops the loop. -/
def runFiles (input_dir output_dir : Path) :
    FS → List (String × Timestamp × Bool) → FS × List Event × Bool
  | fs, [] => (fs, [], false)
  | fs, (n, t, ok) :: rest =>
    let r1 := store_file fs input_dir output_dir n t ok
    if r1.2.2 then (r1.1, r1.2.1, true)
    else
      let r2 := runFiles input_dir output_dir r1.1 rest
      (r2.1, r1.2.1 ++ r2.2.1, r2.2.2)

/-- Model of `organize_tabs`: abort with exit status 1 when the output
directory is among the input directory's ancestors, as the script's check
`output_dir in input_dir.parents` does; otherwise process every enumerated
file and finish with exit status 0 (or 1 if an exception escaped). -/
def organize_tabs (input output : Path) (fs : FS)
    (files : List (String × Timestamp × Bool)) : FS × List Event × Nat :=
  if output ∈ pathParents input then (fs, [Event.abortError], 1)
  else
    let r := runFiles input output fs files
    if r.2.2 then (r.1, r.2.1, 1)
    else (r.1, r.2.1 ++ [Event.completeInfo], 0)

/-- Declarative characterisation of the tail pattern `.+[.]\w+`. -/
def ExtShape (r : List Char) : Prop :=
  ∃ b e, r = b ++ '.' :: e ∧ b ≠ [] ∧ noNL b = true ∧ e ≠ [] ∧
    e.all pyIsWord = true

/-- Declarative statement that the `\s-\s` separator pattern occurs at
offset `i` of `s`. -/
def SepPatAt (s : List Char) (i : Nat) : Prop :=
  ∃ w1 w2 r, s.drop i = w1 :: '-' :: w2 :: r ∧ pyIsSpace w1 = true ∧
    pyIsSpace w2 = true

/-- Declarative description of a successful `(?i)^the\s+(.+)` match with
captured group `g`: three characters lowercasing to `t`, `h`, `e`, then a
whitespace run of some maximal feasible length `i`, then the group running
to the first newline or the end. -/
def TheGroupSpec (s g : List Char) : Prop :=
  ∃ c1 c2 c3 rest, s = c1 :: c2 :: c3 :: rest ∧
    lowChar c1 = 't' ∧ lowChar c2 = 'h' ∧ lowChar c3 = 'e' ∧
    ∃ i, 1 ≤ i ∧ (rest.take i).all pyIsSpace = true ∧
      headNonNl (rest.drop i) = true ∧
      g = (rest.drop i).takeWhile (fun c => !(c == '\n')) ∧
      ∀ j, i < j → (rest.take j).all pyIsSpace = true →
        headNonNl (rest.drop j) = false

/-- Fixed wall-clock instant used by the concrete scenarios:
2020-01-01 00:00:00, rendered as `_01012020_000000`. -/
def tsW : Timestamp := ⟨1, 1, 2020, 0, 0, 0⟩

/-- Concrete input directory holding one conventionally named file, used to
probe the nesting precondition. -/
def fsNested : FS := [(["music", "X - Y.txt"], 1)]

/-- Concrete filesystem with a file already placed in the artist folder and
two same-named sources in different directories. -/
def fsCollide : FS :=
  [(["out", "A", "N.txt"], 1), (["in1", "N.txt"], 2), (["in2", "N.txt"], 3)]

/-- State of `fsCollide` after the first same-second placement. -/
def fsCollide1 : FS := (move_file fsCollide tsW ["in1", "N.txt"] ["out", "A"] true).1

/-- State of `fsCollide1` after the second same-second placement. -/
def fsCollide2 : FS := (move_file fsCollide1 tsW ["in2", "N.txt"] ["out", "A"] true).1

/-- Concrete filesystem with two same-named sources and an empty artist
folder, for the collision-safety scenario. -/
def fsPair : FS := [(["in1", "N.txt"], 1), (["in2", "N.txt"], 2)]

/-- Result of placing two files one after the other into the same output
folder. -/
def placeTwice (fs : FS) (t1 t2 : Timestamp) (src1 src2 out : Path) : FS :=
  (move_file (move_file fs t1 src1 out true).1 t2 src2 out true).1

/-- Concrete filesystem whose output folder already holds `N.txt`. -/
def fsOne : FS := [(["out", "N.txt"], 5)]

theorem findFromAux_eq_some {p : Nat → Bool} :
    ∀ {fuel start j : Nat}, findFromAux p fuel start = some j →
      start ≤ j ∧ j < start + fuel ∧ p j = true ∧
      ∀ k, start ≤ k → k < j → p k = false := by
  intro fuel
  induction fuel with
  | zero => intro start j h; simp [findFromAux] at h
  | succ n ih =>
    intro start j h
    rw [findFromAux] at h
    by_cases hp : p start
    · rw [if_pos hp] at h
      cases h
      exact ⟨Nat.le_refl _, Nat.lt_of_lt_of_le (Nat.lt_succ_self _) (by omega),
        hp, fun k hk1 hk2 => absurd hk1 (Nat.not_le_of_lt hk2)⟩
    · rw [if_neg hp] at h
      obtain ⟨h1, h2, h3, h4⟩ := ih h
      refine ⟨by omega, by omega, h3, ?_⟩
      intro k hk1 hk2
      rcases Nat.eq_or_lt_of_le hk1 with heq | hlt
      · subst heq; exact Bool.eq_false_iff.mpr hp
      · exact h4 k hlt hk2

theorem findFromAux_isSome {p : Nat → Bool} :
    ∀ {fuel start j : Nat}, start ≤ j → j < start + fuel → p j = true →
      (findFromAux p fuel start).isSome = true := by
  intro fuel
  induction fuel with
  | zero => intro start j h1 h2 _; omega
  | succ n ih =>
    intro start j h1 h2 h3
    rw [findFromAux]
    by_cases hp : p start
    · rw [if_pos hp]; rfl
    · rw [if_neg hp]
      rcases Nat.eq_or_lt_of_le h1 with heq | hlt
      · subst heq; exact absurd h3 (by simp [hp])
      · exact ih hlt (by omega) h3

theorem findFromAux_eq_none {p : Nat → Bool} :
    ∀ {fuel start : Nat}, findFromAux p fuel start = none →
      ∀ k, start ≤ k → k < start + fuel → p k = false := by
  intro fuel
  induction fuel with
  | zero => intro start _ k h1 h2; omega
  | succ n ih =>
    intro start h k hk1 hk2
    rw [findFromAux] at h
    by_cases hp : p start
    · rw [if_pos hp] at h; cases h
    · rw [if_neg hp] at h
      rcases Nat.eq_or_lt_of_le hk1 with heq | hlt
      · subst heq; exact Bool.eq_false_iff.mpr hp
      · exact ih h k hlt (by omega)

theorem findDown_eq_some {p : Nat → Bool} :
    ∀ {n j : Nat}, findDown p n = some j →
      1 ≤ j ∧ j ≤ n ∧ p j = true ∧ ∀ k, j < k → k ≤ n → p k = false := by
  intro n
  induction n with
  | zero => intro j h; simp [findDown] at h
  | succ m ih =>
    intro j h
    rw [findDown] at h
    by_cases hp : p (m + 1)
    · rw [if_pos hp] at h
      cases h
      exact ⟨by omega, Nat.le_refl _, hp, fun k hk1 hk2 => by omega⟩
    · rw [if_neg hp] at h
      obtain ⟨h1, h2, h3, h4⟩ := ih h
      refine ⟨h1, by omega, h3, ?_⟩
      intro k hk1 hk2
      rcases Nat.eq_or_lt_of_le hk2 with heq | hlt
      · subst heq; exact Bool.eq_false_iff.mpr hp
      · exact h4 k hk1 (by omega)

theorem findDown_isSome {p : Nat → Bool} :
    ∀ {n j : Nat}, 1 ≤ j → j ≤ n → p j = true →
      (findDown p n).isSome = true := by
  intro n
  induction n with
  | zero => intro j h1 h2 _; omega
  | succ m ih =>
    intro j h1 h2 h3
    rw [findDown]
    by_cases hp : p (m + 1)
    · rw [if_pos hp]; rfl
    · rw [if_neg hp]
      rcases Nat.eq_or_lt_of_le h2 with heq | hlt
      · subst heq; exact absurd h3 (by simp [hp])
      · exact ih h1 (by omega) h3

theorem findDown_eq_none {p : Nat → Bool} :
    ∀ {n : Nat}, findDown p n = none → ∀ k, 1 ≤ k → k ≤ n → p k = false := by
  intro n
  induction n with
  | zero => intro _ k h1 h2; omega
  | succ m ih =>
    intro h k hk1 hk2
    rw [findDown] at h
    by_cases hp : p (m + 1)
    · rw [if_pos hp] at h; cases h
    · rw [if_neg hp] at h
      rcases Nat.eq_or_lt_of_le hk2 with heq | hlt
      · subst heq; exact Bool.eq_false_iff.mpr hp
      · exact ih h k hk1 (by omega)

theorem toNat_ofNat_valid {n : Nat} (h : n.isValidChar) :
    (Char.ofNat n).toNat = n := by
  rw [Char.ofNat, dif_pos h]; rfl

theorem toNat_lowChar (c : Char) :
    (lowChar c).toNat = if 65 ≤ c.toNat ∧ c.toNat ≤ 90 then c.toNat + 32 else c.toNat := by
  by_cases h : 65 ≤ c.toNat ∧ c.toNat ≤ 90
  · rw [lowChar, if_pos h, if_pos h]
    exact toNat_ofNat_valid (Or.inl (by omega))
  · rw [lowChar, if_neg h, if_neg h]

theorem toNat_upChar (c : Char) :
    (upChar c).toNat = if 97 ≤ c.toNat ∧ c.toNat ≤ 122 then c.toNat - 32 else c.toNat := by
  by_cases h : 97 ≤ c.toNat ∧ c.toNat ≤ 122
  · rw [upChar, if_pos h, if_pos h]
    exact toNat_ofNat_valid (Or.inl (by omega))
  · rw [upChar, if_neg h, if_neg h]

theorem isCased_lowChar (c : Char) : isCased (lowChar c) = isCased c := by
  rw [Bool.eq_iff_iff]
  simp only [isCased, toNat_lowChar, Bool.or_eq_true, Bool.and_eq_true,
    decide_eq_true_eq]
  by_cases h : 65 ≤ c.toNat ∧ c.toNat ≤ 90
  · rw [if_pos h]; omega
  · rw [if_neg h]

theorem isCased_upChar (c : Char) : isCased (upChar c) = isCased c := by
  rw [Bool.eq_iff_iff]
  simp only [isCased, toNat_upChar, Bool.or_eq_true, Bool.and_eq_true,
    decide_eq_true_eq]
  by_cases h : 97 ≤ c.toNat ∧ c.toNat ≤ 122
  · rw [if_pos h]; omega
  · rw [if_neg h]

theorem lowChar_id {c : Char} (h : ¬(65 ≤ c.toNat ∧ c.toNat ≤ 90)) :
    lowChar c = c := by
  unfold lowChar
  rw [if_neg h]

theorem upChar_id {c : Char} (h : ¬(97 ≤ c.toNat ∧ c.toNat ≤ 122)) :
    upChar c = c := by
  unfold upChar
  rw [if_neg h]

theorem lowChar_lowChar (c : Char) : lowChar (lowChar c) = lowChar c := by
  by_cases h : 65 ≤ c.toNat ∧ c.toNat ≤ 90
  · apply lowChar_id
    rw [toNat_lowChar, if_pos h]
    omega
  · rw [lowChar_id h]
    exact lowChar_id h

theorem upChar_upChar (c : Char) : upChar (upChar c) = upChar c := by
  by_cases h : 97 ≤ c.toNat ∧ c.toNat ≤ 122
  · apply upChar_id
    rw [toNat_upChar, if_pos h]
    omega
  · rw [upChar_id h]
    exact upChar_id h

theorem pyTitleAux_idem (s : List Char) :
    ∀ b, pyTitleAux b (pyTitleAux b s) = pyTitleAux b s := by
  induction s with
  | nil => intro b; rfl
  | cons c cs ih =>
    intro b
    by_cases hc : isCased c
    · cases b with
      | false =>
        rw [pyTitleAux, if_pos hc, if_neg, pyTitleAux, if_pos (by rw [isCased_upChar]; exact hc),
          if_neg, upChar_upChar, ih true]
        all_goals simp
      | true =>
        rw [pyTitleAux, if_pos hc, if_pos rfl, pyTitleAux,
          if_pos (by rw [isCased_lowChar]; exact hc), if_pos rfl, lowChar_lowChar, ih true]
    · rw [pyTitleAux, if_neg (by simp [hc]), pyTitleAux, if_neg (by simp [hc]), ih false]

theorem pyStem_append_pySuffix (name : List Char) :
    pyStem name ++ pySuffix name = name := by
  cases h : dotIdx name with
  | none => simp [pyStem, pySuffix, h]
  | some i => simp [pyStem, pySuffix, h]

theorem dotExtHere_iff (l : List Char) :
    dotExtHere l = true ↔ ∃ e, l = '.' :: e ∧ e ≠ [] ∧ e.all pyIsWord = true := by
  cases l with
  | nil => simp [dotExtHere]
  | cons d e =>
    simp only [dotExtHere, Bool.and_eq_true, beq_iff_eq, Bool.not_eq_true',
      List.isEmpty_eq_false, List.cons.injEq]
    constructor
    · rintro ⟨⟨hd, hne⟩, hw⟩
      exact ⟨e, ⟨hd, rfl⟩, hne, hw⟩
    · rintro ⟨e', ⟨hd, he'⟩, hne, hw⟩
      subst he'
      exact ⟨⟨hd, hne⟩, hw⟩

theorem sepExtHere_iff (l : List Char) :
    sepExtHere l = true ↔ ∃ w1 w2 r, l = w1 :: '-' :: w2 :: r ∧
      pyIsSpace w1 = true ∧ pyIsSpace w2 = true ∧ extMatch r = true := by
  cases l with
  | nil => simp [sepExtHere]
  | cons w1 tl1 =>
    cases tl1 with
    | nil => simp [sepExtHere]
    | cons c tl2 =>
      cases tl2 with
      | nil => simp [sepExtHere]
      | cons w2 r =>
        simp only [sepExtHere, Bool.and_eq_true, beq_iff_eq, List.cons.injEq]
        constructor
        · rintro ⟨⟨⟨hs1, hc⟩, hs2⟩, hext⟩
          exact ⟨w1, w2, r, ⟨rfl, hc, rfl, rfl⟩, hs1, hs2, hext⟩
        · rintro ⟨w1', w2', r', ⟨h1, hc, h2, h3⟩, hs1, hs2, hext⟩
          subst h1; subst h2; subst h3
          exact ⟨⟨⟨hs1, hc⟩, hs2⟩, hext⟩

theorem sepHere_iff (l : List Char) :
    sepHere l = true ↔ ∃ w1 w2 r, l = w1 :: '-' :: w2 :: r ∧
      pyIsSpace w1 = true ∧ pyIsSpace w2 = true := by
  cases l with
  | nil => simp [sepHere]
  | cons w1 tl1 =>
    cases tl1 with
    | nil => simp [sepHere]
    | cons c tl2 =>
      cases tl2 with
      | nil => simp [sepHere]
      | cons w2 r =>
        simp only [sepHere, Bool.and_eq_true, beq_iff_eq, List.cons.injEq]
        constructor
        · rintro ⟨⟨hs1, hc⟩, hs2⟩
          exact ⟨w1, w2, r, ⟨rfl, hc, rfl, rfl⟩, hs1, hs2⟩
        · rintro ⟨w1', w2', r', ⟨h1, hc, h2, h3⟩, hs1, hs2⟩
          subst h1; subst h2; subst h3
          exact ⟨⟨hs1, hc⟩, hs2⟩

theorem length_take_of_lt {l : List α} {i : Nat} (h : i ≤ l.length) :
    (l.take i).length = i := by
  rw [List.length_take]
  omega

theorem take_ne_nil_of_pos {l : List α} {i : Nat} (h1 : 1 ≤ i)
    (h2 : i ≤ l.length) : l.take i ≠ [] := by
  intro hemp
  have := length_take_of_lt h2
  rw [hemp] at this
  simp at this
  omega

theorem extMatch_iff (r : List Char) : extMatch r = true ↔ ExtShape r := by
  constructor
  · intro h
    rw [extMatch, Option.isSome_iff_exists] at h
    obtain ⟨j, hj⟩ := h
    obtain ⟨-, hlt, hp, -⟩ := findFromAux_eq_some hj
    rw [Nat.zero_add] at hlt
    simp only [Bool.and_eq_true, decide_eq_true_eq] at hp
    obtain ⟨⟨hj1, hnl⟩, hext⟩ := hp
    obtain ⟨e, hd, hne, hw⟩ := (dotExtHere_iff _).mp hext
    refine ⟨r.take j, e, ?_, take_ne_nil_of_pos hj1 (Nat.le_of_lt hlt),
      hnl, hne, hw⟩
    conv_lhs => rw [← List.take_append_drop j r]
    rw [hd]
  · rintro ⟨b, e, hr, hb, hnl, he, hw⟩
    have ht : r.take b.length = b := by rw [hr, List.take_left]
    have hd : r.drop b.length = '.' :: e := by rw [hr, List.drop_left]
    have hb1 : 1 ≤ b.length := by
      cases b with
      | nil => exact absurd rfl hb
      | cons x xs => simp
    rw [extMatch]
    apply findFromAux_isSome (Nat.zero_le b.length) (j := b.length)
    · rw [Nat.zero_add, hr, List.length_append, List.length_cons]
      omega
    · simp only [Bool.and_eq_true, decide_eq_true_eq]
      refine ⟨⟨hb1, ?_⟩, ?_⟩
      · rw [ht]; exact hnl
      · rw [hd]; exact (dotExtHere_iff _).mpr ⟨e, rfl, he, hw⟩

theorem tabFullmatch_iff (s : List Char) : tabFullmatch s = true ↔ TabShape s := by
  constructor
  · intro h
    rw [tabFullmatch, tabIdx, Option.isSome_iff_exists] at h
    obtain ⟨i, hi⟩ := h
    obtain ⟨-, hlt, hp, -⟩ := findFromAux_eq_some hi
    rw [Nat.zero_add] at hlt
    simp only [Bool.and_eq_true, decide_eq_true_eq] at hp
    obtain ⟨⟨hi1, hnl⟩, hsep⟩ := hp
    obtain ⟨w1, w2, r, hd, hw1, hw2, hext⟩ := (sepExtHere_iff _).mp hsep
    obtain ⟨b, e, hre, hb, hbnl, he, hew⟩ := (extMatch_iff r).mp hext
    refine ⟨s.take i, w1, w2, b, e, ?_,
      take_ne_nil_of_pos hi1 (Nat.le_of_lt hlt), hnl, hw1, hw2, hb, hbnl,
      he, hew⟩
    conv_lhs => rw [← List.take_append_drop i s]
    rw [hd, hre]
  · rintro ⟨a, w1, w2, b, e, hs, ha, hanl, hw1, hw2, hb, hbnl, he, hew⟩
    have ht : s.take a.length = a := by rw [hs, List.take_left]
    have hd : s.drop a.length = w1 :: '-' :: w2 :: (b ++ '.' :: e) := by
      rw [hs, List.drop_left]
    have ha1 : 1 ≤ a.length := by
      cases a with
      | nil => exact absurd rfl ha
      | cons x xs => simp
    rw [tabFullmatch, tabIdx]
    apply findFromAux_isSome (Nat.zero_le a.length) (j := a.length)
    · rw [Nat.zero_add, hs]
      simp only [List.length_append, List.length_cons]
      omega
    · simp only [Bool.and_eq_true, decide_eq_true_eq]
      refine ⟨⟨ha1, by rw [ht]; exact hanl⟩, ?_⟩
      rw [hd]
      apply (sepExtHere_iff _).mpr
      exact ⟨w1, w2, b ++ '.' :: e, rfl, hw1, hw2,
        (extMatch_iff _).mpr ⟨b, e, rfl, hb, hbnl, he, hew⟩⟩

theorem sepHere_iff_SepPatAt (s : List Char) (i : Nat) :
    sepHere (s.drop i) = true ↔ SepPatAt s i := by
  rw [sepHere_iff]
  rfl

theorem artistSplit_eq_some {s a : List Char} (h : artistSplit s = some a) :
    s.take a.length = a ∧ 1 ≤ a.length ∧ a.length < s.length ∧
      noNL a = true ∧ SepPatAt s a.length ∧
      ∀ j, 1 ≤ j → j < a.length → noNL (s.take j) = true → ¬ SepPatAt s j := by
  rw [artistSplit, Option.map_eq_some'] at h
  obtain ⟨i, hfind, hval⟩ := h
  obtain ⟨-, hlt, hp, hmin⟩ := findFromAux_eq_some hfind
  rw [Nat.zero_add] at hlt
  simp only [Bool.and_eq_true, decide_eq_true_eq] at hp
  obtain ⟨⟨hi1, hnl⟩, hsep⟩ := hp
  have hlen : a.length = i := by
    rw [← hval]
    exact length_take_of_lt (Nat.le_of_lt hlt)
  subst hval
  rw [hlen]
  refine ⟨rfl, hi1, hlt, hnl, (sepHere_iff_SepPatAt s i).mp hsep, ?_⟩
  intro j hj1 hji hjnl hjsep
  have hfalse := hmin j (Nat.zero_le j) hji
  have htrue : (decide (1 ≤ j) && noNL (s.take j) && sepHere (s.drop j)) = true := by
    simp only [Bool.and_eq_true, decide_eq_true_eq]
    exact ⟨⟨hj1, hjnl⟩, (sepHere_iff_SepPatAt s j).mpr hjsep⟩
  rw [htrue] at hfalse
  cases hfalse

theorem artistSplit_isSome_of_tabFullmatch {s : List Char}
    (h : tabFullmatch s = true) : (artistSplit s).isSome = true := by
  rw [tabFullmatch, tabIdx, Option.isSome_iff_exists] at h
  obtain ⟨i, hi⟩ := h
  obtain ⟨-, hlt, hp, -⟩ := findFromAux_eq_some hi
  rw [Nat.zero_add] at hlt
  simp only [Bool.and_eq_true, decide_eq_true_eq] at hp
  obtain ⟨⟨hi1, hnl⟩, hsep⟩ := hp
  obtain ⟨w1, w2, r, hd, hw1, hw2, -⟩ := (sepExtHere_iff _).mp hsep
  rw [artistSplit]
  have hsome : (findFromAux
      (fun i => decide (1 ≤ i) && noNL (s.take i) && sepHere (s.drop i))
      s.length 0).isSome = true := by
    apply findFromAux_isSome (Nat.zero_le i) (j := i)
    · rw [Nat.zero_add]; exact hlt
    · simp only [Bool.and_eq_true, decide_eq_true_eq]
      exact ⟨⟨hi1, hnl⟩, (sepHere_iff _).mpr ⟨w1, w2, r, hd, hw1, hw2⟩⟩
  rw [Option.isSome_iff_exists] at hsome
  obtain ⟨j, hj⟩ := hsome
  rw [hj]
  rfl

/-- Sanity facts about the leading whitespace run: a take within the run
is all whitespace. -/
theorem all_take_of_le_takeWhile {p : Char → Bool} :
    ∀ (l : List Char) (j : Nat), j ≤ (l.takeWhile p).length →
      (l.take j).all p = true := by
  intro l
  induction l with
  | nil => intro j h; simp at h; simp [h]
  | cons c cs ih =>
    intro j h
    by_cases hc : p c
    · rw [List.takeWhile_cons, if_pos hc] at h
      cases j with
      | zero => simp
      | succ m =>
        rw [List.take_succ_cons, List.all_cons, hc, Bool.true_and]
        exact ih m (by simpa using h)
    · rw [List.takeWhile_cons, if_neg hc] at h
      simp at h
      simp [h]

theorem le_takeWhile_of_all_take {p : Char → Bool} :
    ∀ (l : List Char) (j : Nat), (l.take j).all p = true →
      min j l.length ≤ (l.takeWhile p).length := by
  intro l
  induction l with
  | nil => intro j _; simp
  | cons c cs ih =>
    intro j h
    cases j with
    | zero => simp
    | succ m =>
      rw [List.take_succ_cons, List.all_cons, Bool.and_eq_true] at h
      rw [List.takeWhile_cons, if_pos h.1]
      have := ih m h.2
      simp only [List.length_cons]
      omega

theorem headNonNl_iff (l : List Char) :
    headNonNl l = true ↔ ∃ d r', l = d :: r' ∧ ¬(d = '\n') := by
  cases l with
  | nil => simp [headNonNl]
  | cons d r' =>
    simp only [headNonNl, Bool.not_eq_true', beq_eq_false_iff_ne, ne_eq,
      List.cons.injEq]
    constructor
    · intro h
      exact ⟨d, r', ⟨rfl, rfl⟩, h⟩
    · rintro ⟨d', r'', ⟨hd, hr⟩, hne⟩
      subst hd
      exact hne

theorem lt_length_of_headNonNl {rest : List Char} {j : Nat}
    (h : headNonNl (rest.drop j) = true) : j < rest.length := by
  obtain ⟨d, r', hd, -⟩ := (headNonNl_iff _).mp h
  by_contra hle
  push_neg at hle
  rw [List.drop_eq_nil_of_le hle] at hd
  cases hd

theorem wsGroup_eq_some_iff (rest g : List Char) :
    wsGroup rest = some g ↔
      ∃ i, 1 ≤ i ∧ (rest.take i).all pyIsSpace = true ∧
        headNonNl (rest.drop i) = true ∧
        g = (rest.drop i).takeWhile (fun c => !(c == '\n')) ∧
        ∀ j, i < j → (rest.take j).all pyIsSpace = true →
          headNonNl (rest.drop j) = false := by
  constructor
  · intro h
    rw [wsGroup, Option.map_eq_some'] at h
    obtain ⟨i, hfind, hval⟩ := h
    obtain ⟨h1, h2, h3, h4⟩ := findDown_eq_some hfind
    refine ⟨i, h1, all_take_of_le_takeWhile rest i h2, h3, hval.symm, ?_⟩
    intro j hij hall
    cases hh : headNonNl (rest.drop j) with
    | false => rfl
    | true =>
      exfalso
      have hjlen : j < rest.length := lt_length_of_headNonNl hh
      have hjws : j ≤ wsRun rest := by
        have := le_takeWhile_of_all_take rest j hall
        rw [wsRun]
        omega
      have := h4 j hij hjws
      rw [hh] at this
      cases this
  · rintro ⟨i, hi1, hall, hhd, hval, hmax⟩
    have hilen : i < rest.length := lt_length_of_headNonNl hhd
    have hiws : i ≤ wsRun rest := by
      have := le_takeWhile_of_all_take rest i hall
      rw [wsRun]
      omega
    have hsome :=
      findDown_isSome (p := fun k => headNonNl (rest.drop k)) hi1 hiws hhd
    rw [Option.isSome_iff_exists] at hsome
    obtain ⟨i', hi'⟩ := hsome
    obtain ⟨h1', h2', h3', h4'⟩ := findDown_eq_some hi'
    have heq : i' = i := by
      rcases Nat.lt_trichotomy i' i with hlt | heq | hgt
      · exfalso
        have := h4' i hlt hiws
        rw [hhd] at this
        cases this
      · exact heq
      · exfalso
        have hall' := all_take_of_le_takeWhile rest i' h2'
        have := hmax i' hgt hall'
        rw [h3'] at this
        cases this
    subst heq
    rw [wsGroup, hi', Option.map_some', hval]

theorem theGroup_eq_some_iff (s g : List Char) :
    theGroup s = some g ↔ TheGroupSpec s g := by
  cases s with
  | nil => simp [theGroup, TheGroupSpec]
  | cons c1 tl1 =>
    cases tl1 with
    | nil => simp [theGroup, TheGroupSpec]
    | cons c2 tl2 =>
      cases tl2 with
      | nil => simp [theGroup, TheGroupSpec]
      | cons c3 rest =>
        rw [theGroup]
        by_cases hthe : lowChar c1 = 't' ∧ lowChar c2 = 'h' ∧ lowChar c3 = 'e'
        · rw [if_pos hthe, wsGroup_eq_some_iff]
          constructor
          · rintro ⟨i, hi1, hall, hhd, hval, hmax⟩
            exact ⟨c1, c2, c3, rest, rfl, hthe.1, hthe.2.1, hthe.2.2,
              i, hi1, hall, hhd, hval, hmax⟩
          · rintro ⟨c1', c2', c3', rest', heq, h1, h2, h3, i, hi1, hall,
              hhd, hval, hmax⟩
            obtain ⟨e1, e2, e3, e4⟩ : c1' = c1 ∧ c2' = c2 ∧ c3' = c3 ∧
                rest' = rest := by
              simp only [List.cons.injEq] at heq
              exact ⟨heq.1.symm, heq.2.1.symm, heq.2.2.1.symm, heq.2.2.2.symm⟩
            subst e1; subst e2; subst e3; subst e4
            exact ⟨i, hi1, hall, hhd, hval, hmax⟩
        · rw [if_neg hthe]
          constructor
          · intro h; cases h
          · rintro ⟨c1', c2', c3', rest', heq, h1, h2, h3, -⟩
            exfalso
            obtain ⟨e1, e2, e3, e4⟩ : c1' = c1 ∧ c2' = c2 ∧ c3' = c3 ∧
                rest' = rest := by
              simp only [List.cons.injEq] at heq
              exact ⟨heq.1.symm, heq.2.1.symm, heq.2.2.1.symm, heq.2.2.2.symm⟩
            subst e1; subst e2; subst e3
            exact hthe ⟨h1, h2, h3⟩

theorem pathName_append (d : Path) (n : String) : pathName (d ++ [n]) = n := by
  rw [pathName, List.getLastD_concat]

theorem toList_tsName (n : String) (t : Timestamp) :
    (tsName n t).toList = pyStem n.toList ++ fmtTimestamp t ++ pySuffix n.toList :=
  rfl

theorem tsName_ne (n : String) (t : Timestamp) : tsName n t ≠ n := by
  intro h
  have hl : (tsName n t).toList = n.toList := by rw [h]
  rw [toList_tsName] at hl
  have hlen := congrArg List.length hl
  have hsplit := congrArg List.length (pyStem_append_pySuffix n.toList)
  rw [List.length_append, List.length_append] at hlen
  rw [List.length_append] at hsplit
  rw [fmtTimestamp, List.length_cons] at hlen
  omega

theorem fsGet_filter_keep {src dst p : Path} (h1 : p ≠ src) (h2 : p ≠ dst) :
    ∀ fs : FS,
      fsGet (fs.filter (fun e => decide (e.1 ≠ src ∧ e.1 ≠ dst))) p = fsGet fs p := by
  intro fs
  induction fs with
  | nil => rfl
  | cons hd rest ih =>
    obtain ⟨q, i⟩ := hd
    by_cases hq : q ≠ src ∧ q ≠ dst
    · rw [List.filter_cons_of_pos (by simpa using hq), fsGet, fsGet, ih]
    · have hpq : p ≠ q := by
        intro he
        subst he
        exact hq ⟨h1, h2⟩
      rw [List.filter_cons_of_neg (by simpa using hq), fsGet, if_neg hpq, ih]

theorem fsGet_fsRename_of_ne {fs : FS} {src dst p : Path}
    (h1 : p ≠ src) (h2 : p ≠ dst) :
    fsGet (fsRename fs src dst) p = fsGet fs p := by
  rw [fsRename]
  cases hsrc : fsGet fs src with
  | none => rfl
  | some i =>
    rw [fsGet, if_neg h2]
    exact fsGet_filter_keep h1 h2 fs

theorem fsGet_fsRename_dst {fs : FS} {src dst : Path} {i : Nat}
    (h : fsGet fs src = some i) :
    fsGet (fsRename fs src dst) dst = some i := by
  rw [fsRename, h, fsGet, if_pos rfl]

theorem get_artist_isSome_of_tabFullmatch {s : List Char}
    (h : tabFullmatch s = true) : (get_artist s).isSome = true := by
  rw [get_artist, Option.isSome_map']
  exact artistSplit_isSome_of_tabFullmatch h

theorem store_file_not_raised (fs : FS) (inp out : Path) (n : String)
    (t : Timestamp) (ok : Bool) : (store_file fs inp out n t ok).2.2 = false := by
  by_cases hm : tabFullmatch n.toList
  · cases hg : get_artist n.toList with
    | none =>
      have hsome := get_artist_isSome_of_tabFullmatch hm
      rw [hg] at hsome
      simp at hsome
    | some a =>
      have hm' : tabFullmatch n.data = true := hm
      have hg' : get_artist n.data = some a := hg
      simp [store_file, hm', hg']
  · have hm' : ¬tabFullmatch n.data = true := hm
    simp [store_file, hm']

theorem move_file_event_named (fs : FS) (t : Timestamp) (fp out : Path)
    (ok : Bool) :
    ∃ e ∈ (move_file fs t fp out ok).2, eventName e = some (pathName fp) := by
  cases ok with
  | true =>
    refine ⟨Event.movedInfo (pathName fp) (move_target fs t fp out), ?_, rfl⟩
    simp [move_file]
  | false =>
    refine ⟨Event.moveError (pathName fp), ?_, rfl⟩
    simp [move_file]

theorem store_file_event_named (fs : FS) (inp out : Path) (n : String)
    (t : Timestamp) (ok : Bool) :
    ∃ e ∈ (store_file fs inp out n t ok).2.1, eventName e = some n := by
  by_cases hm : tabFullmatch n.toList
  · cases hg : get_artist n.toList with
    | none =>
      refine ⟨Event.valueError n, ?_, rfl⟩
      have hm' : tabFullmatch n.data = true := hm
      have hg' : get_artist n.data = none := hg
      simp [store_file, hm', hg']
    | some a =>
      obtain ⟨e, hmem, hname⟩ := move_file_event_named fs t (inp ++ [n])
        (create_folder (String.mk a) out) ok
      rw [pathName_append] at hname
      refine ⟨e, ?_, hname⟩
      have hm' : tabFullmatch n.data = true := hm
      have hg' : get_artist n.data = some a := hg
      simpa [store_file, hm', hg'] using hmem
  · refine ⟨Event.skipWarning n, ?_, rfl⟩
    have hm' : ¬tabFullmatch n.data = true := hm
    simp [store_file, hm']

theorem runFiles_not_raised (inp out : Path) :
    ∀ (files : List (String × Timestamp × Bool)) (fs : FS),
      (runFiles inp out fs files).2.2 = false := by
  intro files
  induction files with
  | nil => intro fs; rfl
  | cons f rest ih =>
    intro fs
    obtain ⟨n, t, ok⟩ := f
    have hsr := store_file_not_raised fs inp out n t ok
    simp only [runFiles, hsr, if_false, Bool.false_eq_true]
    exact ih _

theorem runFiles_event_named (inp out : Path) :
    ∀ (files : List (String × Timestamp × Bool)) (fs : FS)
      (f : String × Timestamp × Bool), f ∈ files →
      ∃ e ∈ (runFiles inp out fs files).2.1, eventName e = some f.1 := by
  intro files
  induction files with
  | nil => intro fs f h; cases h
  | cons g rest ih =>
    intro fs f hm
    obtain ⟨n, t, ok⟩ := g
    have hsr := store_file_not_raised fs inp out n t ok
    simp only [runFiles, hsr, if_false, Bool.false_eq_true]
    rcases List.mem_cons.mp hm with heq | htl
    · subst heq
      obtain ⟨e, hmem, hname⟩ := store_file_event_named fs inp out n t ok
      exact ⟨e, List.mem_append_left _ hmem, hname⟩
    · obtain ⟨e, hmem, hname⟩ :=
        ih (store_file fs inp out n t ok).1 f htl
      exact ⟨e, List.mem_append_right _ hmem, hname⟩

theorem move_file_rename_eq (fs : FS) (t : Timestamp) (fp out : Path) :
    (move_file fs t fp out true).1 = fsRename fs fp (move_target fs t fp out) := by
  simp [move_file]

theorem move_target_no_collision {fs : FS} {t : Timestamp} {fp out : Path}
    (h : fsExists fs (out ++ [pathName fp]) = false) :
    move_target fs t fp out = out ++ [pathName fp] := by
  simp [move_target, h]

theorem move_target_collision {fs : FS} {t : Timestamp} {fp out : Path}
    (h : fsExists fs (out ++ [pathName fp]) = true) :
    move_target fs t fp out = out ++ [tsName (pathName fp) t] := by
  simp [move_target, h]

theorem append_singleton_inj {d e : Path} {a b : String}
    (h : d ++ [a] = e ++ [b]) : d = e ∧ a = b := by
  have hlen : d.length = e.length := by
    have := congrArg List.length h
    simp only [List.length_append, List.length_cons, List.length_nil] at this
    omega
  obtain ⟨h1, h2⟩ := List.append_inj h hlen
  exact ⟨h1, by simpa using h2⟩

/-- C1.  The script's precondition check `output_dir in input_dir.parents`
does not abort when the output directory equals or descends from the input
directory: with input `/music` and output `/music/organized` the run
finishes with exit status 0 and moves the file into the nested output tree,
while with input `/a/b` and output `/a` (output an ancestor, not inside the
input) the run aborts with status 1 — the opposite of the documented
precondition. -/
theorem organize_nested_output_eval :
    (organize_tabs ["music"] ["music", "organized"] fsNested
        [("X - Y.txt", tsW, true)]).2.2 = 0 ∧
    fsGet (organize_tabs ["music"] ["music", "organized"] fsNested
        [("X - Y.txt", tsW, true)]).1 ["music", "X - Y.txt"] = none ∧
    fsGet (organize_tabs ["music"] ["music", "organized"] fsNested
        [("X - Y.txt", tsW, true)]).1
        ["music", "organized", "X", "X - Y.txt"] = some 1 ∧
    (organize_tabs ["a", "b"] ["a"] fsNested []).2.2 = 1 := by
  decide

/-- C2 counterexample.  The filename `A<TAB>- B.txt` contains no literal
space-hyphen-space separator, yet the script's full-pattern regex matches
it, because `\s` accepts any whitespace character. -/
theorem classification_literal_separator_counterexample :
    tabFullmatch "A\t- B.txt".toList = true ∧
    litShapeMatch "A\t- B.txt".toList = false := by
  decide

/-- C2 amended.  Classification matches exactly the filenames decomposing
as non-empty newline-free segment, whitespace-hyphen-whitespace, non-empty
newline-free segment, dot, non-empty word-character extension; any other
filename is skipped with a warning, no artist computed and no error
raised. -/
theorem classification_pattern_amended :
    (∀ s : List Char, tabFullmatch s = true ↔ TabShape s) ∧
    (∀ (fs : FS) (inp out : Path) (n : String) (t : Timestamp) (ok : Bool),
      tabFullmatch n.toList = false →
      store_file fs inp out n t ok = (fs, [Event.skipWarning n], false)) := by
  constructor
  · exact tabFullmatch_iff
  · intro fs inp out n t ok h
    have h2 : ¬(tabFullmatch n.toList = true) := by
      rw [h]
      exact Bool.false_ne_true
    unfold store_file
    rw [if_neg h2]

/-- C2 witness: a conventional name satisfies the declarative shape, and a
separator-free name is skipped untouched. -/
theorem classification_pattern_amended_witness :
    TabShape "A - B.txt".toList ∧
    store_file [] [] [] "readme.txt" tsW true =
      ([], [Event.skipWarning "readme.txt"], false) :=
  ⟨(classification_pattern_amended.1 "A - B.txt".toList).mp (by decide),
   classification_pattern_amended.2 [] [] [] "readme.txt" tsW true (by decide)⟩

/-- C5.  Every filename accepted by the full structural pattern is also
accepted by the separate artist-extraction regex, so the `ValueError`
branch of `get_artist` is unreachable after a structural match. -/
theorem structural_match_implies_extraction :
    ∀ s : List Char, tabFullmatch s = true →
      (artistSplit s).isSome = true ∧ (get_artist s).isSome = true :=
  fun _ h =>
    ⟨artistSplit_isSome_of_tabFullmatch h, get_artist_isSome_of_tabFullmatch h⟩

/-- C5 witness at a concrete conventional filename. -/
theorem structural_match_implies_extraction_witness :
    (artistSplit "A - B.txt".toList).isSome = true ∧
    (get_artist "A - B.txt".toList).isSome = true :=
  structural_match_implies_extraction "A - B.txt".toList (by decide)

/-- C6 counterexample.  The filename `A<TAB>-<TAB>x - B.txt` structurally
matches, its first literal `" - "` occurrence starts after `A<TAB>-<TAB>x`,
but the extraction regex stops at the earlier `\s-\s` occurrence and
captures only `A`. -/
theorem artist_boundary_literal_counterexample :
    tabFullmatch "A\t-\tx - B.txt".toList = true ∧
    artistSplit "A\t-\tx - B.txt".toList = some "A".toList ∧
    litSepSegment "A\t-\tx - B.txt".toList = some "A\t-\tx".toList ∧
    some "A".toList ≠ some "A\t-\tx".toList := by
  decide

/-- C6 amended.  The artist segment is the shortest non-empty newline-free
leading run that is followed by the whitespace-hyphen-whitespace separator
pattern: the capture is a verbatim prefix, the separator pattern occurs
right after it, and no earlier split position admits the separator
pattern. -/
theorem artist_boundary_first_separator_amended :
    ∀ s a : List Char, artistSplit s = some a →
      s.take a.length = a ∧ 1 ≤ a.length ∧ noNL a = true ∧
      SepPatAt s a.length ∧
      ∀ j, 1 ≤ j → j < a.length → noNL (s.take j) = true → ¬ SepPatAt s j := by
  intro s a h
  obtain ⟨h1, h2, _, h4, h5, h6⟩ := artistSplit_eq_some h
  exact ⟨h1, h2, h4, h5, h6⟩

/-- C6 witness at a concrete filename with two separator occurrences. -/
theorem artist_boundary_first_separator_amended_witness :
    ("A\t-\tx - B.txt".toList).take ("A".toList).length = "A".toList ∧
    SepPatAt "A\t-\tx - B.txt".toList ("A".toList).length :=
  ⟨(artist_boundary_first_separator_amended "A\t-\tx - B.txt".toList
      "A".toList (by decide)).1,
   (artist_boundary_first_separator_amended "A\t-\tx - B.txt".toList
      "A".toList (by decide)).2.2.2.1⟩

/-- C9.  The title-casing function is idempotent: applying it twice equals
applying it once. -/
theorem title_case_idempotent :
    ∀ s : List Char, pyTitle (pyTitle s) = pyTitle s :=
  fun s => pyTitleAux_idem s false

/-- C9 witness at a concrete artist name. -/
theorem title_case_idempotent_witness :
    pyTitle (pyTitle "pink floyd".toList) = pyTitle "pink floyd".toList :=
  title_case_idempotent "pink floyd".toList

theorem pyTitleAux_length : ∀ (l : List Char) (b : Bool),
    (pyTitleAux b l).length = l.length := by
  intro l
  induction l with
  | nil => intro b; rfl
  | cons c cs ih =>
    intro b
    by_cases hc : isCased c
    · rw [pyTitleAux, if_pos hc, List.length_cons, List.length_cons, ih true]
    · rw [pyTitleAux, if_neg hc, List.length_cons, List.length_cons, ih false]

theorem pyTitleAux_get_of_uncased : ∀ (l : List Char) (b : Bool) (i : Nat)
    (c : Char), l.get? i = some c → isCased c = false →
    (pyTitleAux b l).get? i = some c := by
  intro l
  induction l with
  | nil => intro b i c h _; cases h
  | cons d ds ih =>
    intro b i c h hc
    cases i with
    | zero =>
      rw [List.get?_cons_zero] at h
      cases h
      rw [pyTitleAux, if_neg (by rw [hc]; exact Bool.false_ne_true),
        List.get?_cons_zero]
    | succ m =>
      rw [List.get?_cons_succ] at h
      by_cases hd : isCased d
      · rw [pyTitleAux, if_pos hd, List.get?_cons_succ]
        exact ih true m c h hc
      · rw [pyTitleAux, if_neg hd, List.get?_cons_succ]
        exact ih false m c h hc

theorem pyIsSpace_not_cased (c : Char) (h : pyIsSpace c = true) :
    isCased c = false := by
  simp only [pyIsSpace, Bool.or_eq_true, beq_iff_eq] at h
  rcases h with ((((h | h) | h) | h) | h) | h
  all_goals subst h
  all_goals decide

/-- C10.  Artist extraction never trims whitespace: for every successful
extraction the capture is the verbatim prefix of the filename, so any
whitespace around the separator that falls before it is kept; title-casing
preserves length and leaves every whitespace character in place, and
outside the `The` special case the artist folder name is exactly the
title-cased capture, so the kept whitespace appears verbatim in the folder
name.  Concretely, `A  - B.ext` yields the artist `A ` with its trailing
space in the folder name, and `   - B.ext` matches and yields the
whitespace-only artist `  `, creating a whitespace-only folder. -/
theorem artist_whitespace_preserved :
    (∀ s a : List Char, artistSplit s = some a → s.take a.length = a) ∧
    (∀ l : List Char, (pyTitle l).length = l.length) ∧
    (∀ (l : List Char) (i : Nat) (c : Char), l.get? i = some c →
      pyIsSpace c = true → (pyTitle l).get? i = some c) ∧
    (∀ a : List Char, theGroup a = none → reformat_artist a = pyTitle a) ∧
    artistSplit "A  - B.ext".toList = some "A ".toList ∧
    get_artist "A  - B.ext".toList = some "A ".toList ∧
    create_folder "A " ["out"] = ["out", "A "] ∧
    tabFullmatch "   - B.ext".toList = true ∧
    get_artist "   - B.ext".toList = some "  ".toList ∧
    ("  ".toList).all pyIsSpace = true ∧
    create_folder "  " ["out"] = ["out", "  "] := by
  refine ⟨?_, ?_, ?_, ?_, by decide, by decide, by decide, by decide,
    by decide, by decide, by decide⟩
  · intro s a h
    exact (artistSplit_eq_some h).1
  · intro l
    exact pyTitleAux_length l false
  · intro l i c h hsp
    exact pyTitleAux_get_of_uncased l false i c h (pyIsSpace_not_cased c hsp)
  · intro a h
    unfold reformat_artist
    rw [h]

/-- C10 witness: the verbatim-prefix and whitespace-preservation parts at
the concrete capture of `A  - B.ext`. -/
theorem artist_whitespace_preserved_witness :
    ("A  - B.ext".toList).take ("A ".toList).length = "A ".toList ∧
    (pyTitle "A ".toList).get? 1 = some ' ' ∧
    reformat_artist "A ".toList = pyTitle "A ".toList :=
  ⟨artist_whitespace_preserved.1 "A  - B.ext".toList "A ".toList (by decide),
   artist_whitespace_preserved.2.2.1 "A ".toList 1 ' ' (by decide) (by decide),
   artist_whitespace_preserved.2.2.2.1 "A ".toList (by decide)⟩

/-- C3 counterexample.  With a file already at the candidate path and two
same-named sources placed within the same wall-clock second, both
placements report success, yet afterwards the file placed first (identity
2) is gone: the second placement reused the same timestamp-suffixed name
and the rename overwrote it. -/
theorem collision_overwrite_counterexample :
    (move_file fsCollide tsW ["in1", "N.txt"] ["out", "A"] true).2 =
      [Event.collisionInfo "N.txt" "N_01012020_000000.txt",
       Event.movedInfo "N.txt" ["out", "A", "N_01012020_000000.txt"]] ∧
    (move_file fsCollide1 tsW ["in2", "N.txt"] ["out", "A"] true).2 =
      [Event.collisionInfo "N.txt" "N_01012020_000000.txt",
       Event.movedInfo "N.txt" ["out", "A", "N_01012020_000000.txt"]] ∧
    fsCollide1 =
      [(["out", "A", "N_01012020_000000.txt"], 2), (["out", "A", "N.txt"], 1),
       (["in2", "N.txt"], 3)] ∧
    fsCollide2 =
      [(["out", "A", "N_01012020_000000.txt"], 3),
       (["out", "A", "N.txt"], 1)] := by
  decide

/-- C3 amended.  When two distinct same-named sources are placed into the
same folder whose candidate path is initially free and whose
timestamp-suffixed path at the second placement's time is also free, both
files exist afterwards — the first under the original base name, the second
under the timestamp-suffixed name — and every other path is untouched. -/
theorem collision_no_overwrite_amended :
    ∀ (fs : FS) (t1 t2 : Timestamp) (d1 d2 out : Path) (n : String)
      (i1 i2 : Nat),
      d1 ++ [n] ≠ d2 ++ [n] →
      fsGet fs (d1 ++ [n]) = some i1 →
      fsGet fs (d2 ++ [n]) = some i2 →
      fsGet fs (out ++ [n]) = none →
      fsGet fs (out ++ [tsName n t2]) = none →
      d2 ++ [n] ≠ out ++ [n] →
      d2 ++ [n] ≠ out ++ [tsName n t2] →
      fsGet (placeTwice fs t1 t2 (d1 ++ [n]) (d2 ++ [n]) out) (out ++ [n]) =
          some i1 ∧
      fsGet (placeTwice fs t1 t2 (d1 ++ [n]) (d2 ++ [n]) out)
          (out ++ [tsName n t2]) = some i2 ∧
      out ++ [n] ≠ out ++ [tsName n t2] ∧
      ∀ p : Path, p ≠ d1 ++ [n] → p ≠ d2 ++ [n] → p ≠ out ++ [n] →
        p ≠ out ++ [tsName n t2] →
        fsGet (placeTwice fs t1 t2 (d1 ++ [n]) (d2 ++ [n]) out) p =
          fsGet fs p := by
  intro fs t1 t2 d1 d2 out n i1 i2 hsrc hi1 hi2 hfree hfreets h2t h2ts
  have e1 : pathName (d1 ++ [n]) = n := pathName_append d1 n
  have e2 : pathName (d2 ++ [n]) = n := pathName_append d2 n
  have htgt_ne : out ++ [n] ≠ out ++ [tsName n t2] := by
    intro h
    obtain ⟨-, he⟩ := append_singleton_inj h
    exact tsName_ne n t2 he.symm
  have hex1 : fsExists fs (out ++ [pathName (d1 ++ [n])]) = false := by
    rw [e1, fsExists, hfree]
    rfl
  have hfs1 : (move_file fs t1 (d1 ++ [n]) out true).1 =
      fsRename fs (d1 ++ [n]) (out ++ [n]) := by
    rw [move_file_rename_eq, move_target_no_collision hex1, e1]
  have hts_ne_src1 : out ++ [tsName n t2] ≠ d1 ++ [n] := by
    intro h
    obtain ⟨-, he⟩ := append_singleton_inj h
    exact tsName_ne n t2 he
  have g1 : fsGet (move_file fs t1 (d1 ++ [n]) out true).1 (out ++ [n]) =
      some i1 := by
    rw [hfs1]
    exact fsGet_fsRename_dst hi1
  have g2 : fsGet (move_file fs t1 (d1 ++ [n]) out true).1 (d2 ++ [n]) =
      some i2 := by
    rw [hfs1, fsGet_fsRename_of_ne (Ne.symm hsrc) h2t]
    exact hi2
  have gts : fsGet (move_file fs t1 (d1 ++ [n]) out true).1
      (out ++ [tsName n t2]) = none := by
    rw [hfs1, fsGet_fsRename_of_ne hts_ne_src1 htgt_ne.symm]
    exact hfreets
  have hex2 : fsExists (move_file fs t1 (d1 ++ [n]) out true).1
      (out ++ [pathName (d2 ++ [n])]) = true := by
    rw [e2, fsExists, g1]
    rfl
  have hfs2 : placeTwice fs t1 t2 (d1 ++ [n]) (d2 ++ [n]) out =
      fsRename (move_file fs t1 (d1 ++ [n]) out true).1 (d2 ++ [n])
        (out ++ [tsName n t2]) := by
    rw [placeTwice, move_file_rename_eq, move_target_collision hex2, e2]
  refine ⟨?_, ?_, htgt_ne, ?_⟩
  · rw [hfs2, fsGet_fsRename_of_ne (Ne.symm h2t) htgt_ne]
    exact g1
  · rw [hfs2]
    exact fsGet_fsRename_dst g2
  · intro p hp1 hp2 hp3 hp4
    rw [hfs2, fsGet_fsRename_of_ne hp2 hp4, hfs1,
      fsGet_fsRename_of_ne hp1 hp3]

/-- C3 witness: the amended collision guarantee at a concrete pair of
same-named sources placed at the same instant into an empty folder. -/
theorem collision_no_overwrite_amended_witness :
    fsGet (placeTwice fsPair tsW tsW (["in1"] ++ ["N.txt"])
        (["in2"] ++ ["N.txt"]) ["out", "A"]) (["out", "A"] ++ ["N.txt"]) =
      some 1 ∧
    fsGet (placeTwice fsPair tsW tsW (["in1"] ++ ["N.txt"])
        (["in2"] ++ ["N.txt"]) ["out", "A"])
        (["out", "A"] ++ [tsName "N.txt" tsW]) = some 2 :=
  ⟨(collision_no_overwrite_amended fsPair tsW tsW ["in1"] ["in2"]
      ["out", "A"] "N.txt" 1 2 (by decide) (by decide) (by decide) (by decide)
      (by decide) (by decide) (by decide)).1,
   (collision_no_overwrite_amended fsPair tsW tsW ["in1"] ["in2"]
      ["out", "A"] "N.txt" 1 2 (by decide) (by decide) (by decide) (by decide)
      (by decide) (by decide) (by decide)).2.1⟩

/-- C4 counterexample.  The segment `the a<NL>b` starts case-insensitively
with `the` followed by whitespace, but the reformatted result keeps only
the part of the remainder before the newline: the code yields `A, The`,
not the title-cased full remainder `A<NL>B, The`. -/
theorem reformat_the_remainder_counterexample :
    "the a\nb".toList =
      't' :: 'h' :: 'e' :: ' ' :: 'a' :: '\n' :: 'b' :: [] ∧
    reformat_artist "the a\nb".toList = "A, The".toList ∧
    pyTitle "a\nb".toList ++ [',', ' ', 'T', 'h', 'e'] = "A\nB, The".toList ∧
    "A, The".toList ≠ "A\nB, The".toList := by
  decide

/-- C4 amended.  When the name matches `the`, case-insensitively, followed
by at least one whitespace character and a non-newline character — with the
whitespace run and the captured group as the greedy regex determines them —
the result is the title-cased group followed by `", The"`; otherwise the
whole name is title-cased.  The three `Beatles` spellings all normalize to
`Beatles, The`. -/
theorem reformat_the_amended :
    (∀ s g : List Char, TheGroupSpec s g →
      reformat_artist s = pyTitle g ++ [',', ' ', 'T', 'h', 'e']) ∧
    (∀ s : List Char, (∀ g, ¬ TheGroupSpec s g) →
      reformat_artist s = pyTitle s) ∧
    reformat_artist "the beatles".toList = "Beatles, The".toList ∧
    reformat_artist "The Beatles".toList = "Beatles, The".toList ∧
    reformat_artist "THE BEATLES".toList = "Beatles, The".toList := by
  refine ⟨?_, ?_, by decide, by decide, by decide⟩
  · intro s g h
    have hg := (theGroup_eq_some_iff s g).mpr h
    unfold reformat_artist
    rw [hg]
  · intro s h
    cases hg : theGroup s with
    | none =>
      unfold reformat_artist
      rw [hg]
    | some g => exact absurd ((theGroup_eq_some_iff s g).mp hg) (h g)

/-- C4 witness: the positive branch of the amended statement at
`the beatles`. -/
theorem reformat_the_amended_witness :
    reformat_artist "the beatles".toList =
      pyTitle "beatles".toList ++ [',', ' ', 'T', 'h', 'e'] :=
  reformat_the_amended.1 "the beatles".toList "beatles".toList
    ((theGroup_eq_some_iff "the beatles".toList "beatles".toList).mp
      (by decide))

/-- C7.  On collision exactly one alternative name is generated — the
stem, the `_DDMMYYYY_HHMMSS` timestamp of the current instant, then the
original extension, which together reconstitute the original name with the
timestamp inserted — and the move proceeds to that single alternative
unconditionally; for in-range field values the timestamp block is exactly
16 characters. -/
theorem collision_single_timestamp_rename :
    ∀ (fs : FS) (t : Timestamp) (fp out : Path),
      fsExists fs (out ++ [pathName fp]) = true →
      move_target fs t fp out = out ++ [tsName (pathName fp) t] ∧
      (tsName (pathName fp) t).toList =
        pyStem (pathName fp).toList ++ fmtTimestamp t ++
          pySuffix (pathName fp).toList ∧
      pyStem (pathName fp).toList ++ pySuffix (pathName fp).toList =
        (pathName fp).toList ∧
      (move_file fs t fp out true).1 =
        fsRename fs fp (out ++ [tsName (pathName fp) t]) ∧
      (t.day < 100 → t.month < 100 → t.year < 10000 → t.hour < 100 →
        t.minute < 100 → t.second < 100 → (fmtTimestamp t).length = 16) := by
  intro fs t fp out h
  refine ⟨move_target_collision h, rfl, pyStem_append_pySuffix _, ?_, ?_⟩
  · rw [move_file_rename_eq, move_target_collision h]
  · intro hd hm hy hh hmin hs
    rw [fmtTimestamp]
    simp [pad2, pad4, hd, hm, hy, hh, hmin, hs]

/-- C7 witness: the collision branch at a concrete occupied target. -/
theorem collision_single_timestamp_rename_witness :
    move_target fsOne tsW ["in", "N.txt"] ["out"] =
      ["out"] ++ [tsName (pathName ["in", "N.txt"]) tsW] ∧
    (fmtTimestamp tsW).length = 16 :=
  ⟨(collision_single_timestamp_rename fsOne tsW ["in", "N.txt"] ["out"]
      (by decide)).1,
   (collision_single_timestamp_rename fsOne tsW ["in", "N.txt"] ["out"]
      (by decide)).2.2.2.2 (by decide) (by decide) (by decide) (by decide)
      (by decide) (by decide)⟩

/-- C8.  When the nesting precondition passes, the run exits with status 0
whatever the per-file outcomes; every enumerated file produces at least one
event naming it; and a file whose rename fails is caught: the filesystem —
in particular its source file — is untouched and, for a matching name, an
error event naming the file is reported. -/
theorem per_file_failures_recovered_exit_zero :
    ∀ (inp out : Path) (fs : FS) (files : List (String × Timestamp × Bool)),
      out ∉ pathParents inp →
      (organize_tabs inp out fs files).2.2 = 0 ∧
      (∀ f ∈ files, ∃ e ∈ (organize_tabs inp out fs files).2.1,
        eventName e = some f.1) ∧
      (∀ (fs' : FS) (n : String) (t : Timestamp),
        (store_file fs' inp out n t false).1 = fs' ∧
        (tabFullmatch n.toList = true →
          Event.moveError n ∈ (store_file fs' inp out n t false).2.1)) := by
  intro inp out fs files hpre
  have hnr := runFiles_not_raised inp out files fs
  refine ⟨?_, ?_, ?_⟩
  · unfold organize_tabs
    rw [if_neg hpre]
    simp [hnr]
  · intro f hf
    obtain ⟨e, hmem, hname⟩ := runFiles_event_named inp out files fs f hf
    refine ⟨e, ?_, hname⟩
    unfold organize_tabs
    rw [if_neg hpre]
    simp only [hnr, Bool.false_eq_true, if_false]
    exact List.mem_append_left _ hmem
  · intro fs' n t
    constructor
    · by_cases hm : tabFullmatch n.toList
      · cases hg : get_artist n.toList with
        | none =>
          have hsome := get_artist_isSome_of_tabFullmatch hm
          rw [hg] at hsome
          simp at hsome
        | some a =>
          have hm' : tabFullmatch n.data = true := hm
          have hg' : get_artist n.data = some a := hg
          simp [store_file, hm', hg', move_file]
      · have hm' : ¬tabFullmatch n.data = true := hm
        simp [store_file, hm']
    · intro hm
      cases hg : get_artist n.toList with
      | none =>
        have hsome := get_artist_isSome_of_tabFullmatch hm
        rw [hg] at hsome
        simp at hsome
      | some a =>
        have hm' : tabFullmatch n.data = true := hm
        have hg' : get_artist n.data = some a := hg
        have hpn : pathName (inp ++ [n]) = n := pathName_append inp n
        simp [store_file, hm', hg', move_file, hpn]

/-- C8 witness: a concrete run over one matching file whose rename fails
still exits with status 0. -/
theorem per_file_failures_recovered_exit_zero_witness :
    (organize_tabs ["a"] ["b"] fsNested [("X - Y.txt", tsW, false)]).2.2 = 0 :=
  (per_file_failures_recovered_exit_zero ["a"] ["b"] fsNested
    [("X - Y.txt", tsW, false)] (by decide)).1

end TabOrg

